import Mathlib

/-! Verification of the response-contract layer of the two-agent design-debate
system: format validation (`validate_response_format`), design-section
extraction (`extract_design_section`, in its two source variants), and the
convergence engine.  Strings are embedded as `List Char`; the Python string
methods used by the source (`lstrip`, `strip`, `split`, `startswith`,
slicing, substring containment) are modelled for ASCII text below.
-/

/-- The whitespace characters stripped by the Python `strip` family (ASCII). -/
def wsChars : List Char := [' ', '\t', '\n', '\r', '\x0B', '\x0C']

/-- Whitespace test used by the `strip` family. -/
def isWs (c : Char) : Bool := wsChars.contains c

/-- Python `str.lstrip()`: drop leading whitespace. -/
def lstrip (s : List Char) : List Char := s.dropWhile isWs

/-- Python `str.rstrip()`: drop trailing whitespace. -/
def rstrip (s : List Char) : List Char := (s.reverse.dropWhile isWs).reverse

/-- Python `str.strip()`: drop whitespace at both ends. -/
def strip (s : List Char) : List Char := rstrip (lstrip s)

/-- Python `str.split(chr(10))`: split into lines at every newline; the empty
string yields one empty line, a trailing newline yields a final empty line. -/
def splitLines : List Char → List (List Char)
  | [] => [[]]
  | c :: t =>
    let r := splitLines t
    if c = '\n' then [] :: r else (c :: r.headI) :: r.tail

/-- Python `(chr(10)).join(...)`: interleave the lines with newlines. -/
def joinLines : List (List Char) → List Char
  | [] => []
  | [l] => l
  | l :: l2 :: ls => l ++ '\n' :: joinLines (l2 :: ls)

/-- Python `p in s`: substring containment. -/
def containsSub (p : List Char) : List Char → Bool
  | [] => p.isPrefixOf []
  | c :: t => p.isPrefixOf (c :: t) || containsSub p t

/-- The suffix of `s` that begins at the first occurrence of `p`; models the
Python rebinding `response = pattern + response.split(pattern, 1)[1]`
(meaningful when `p` occurs in `s`). -/
def dropBeforeFirst (p : List Char) : List Char → List Char
  | [] => []
  | c :: t => if p.isPrefixOf (c :: t) then c :: t else dropBeforeFirst p t

/-- Index of the first list element satisfying `p` (the `for i, line in
enumerate(...)` search loops of the source). -/
def firstIdx {α : Type} (p : α → Bool) : List α → Option Nat
  | [] => none
  | a :: l => if p a then some 0 else (firstIdx p l).map (· + 1)

/-- Elements paired with their indices, starting at `i`. -/
def enumF {α : Type} (i : Nat) : List α → List (Nat × α)
  | [] => []
  | a :: l => (i, a) :: enumF (i + 1) l

/-- Decimal digits of a natural number, as characters. -/
def natChars (n : Nat) : List Char := (Nat.repr n).data

/-- The header token `## Design` of the format contract. -/
def designHeader : List Char := ("## Design".toList)

/-- One formatted diagnostic line of the preamble excerpt:
Python `f"  Line LINENO: CONTENT"` with the content truncated to 80 chars. -/
def fmtLine (i : Nat) (l : List Char) : List Char :=
  ("  Line ".toList) ++ natChars (i + 1) ++ (": ".toList) ++ l.take 80

/-- A line that, after trimming, starts with `## Design` (the validator's
per-line header test). -/
def pDesign (l : List Char) : Bool := designHeader.isPrefixOf (strip l)

/-- The validator's scan loop: walk the lines from index `i`, returning the
index of the first header line (if any) together with the formatted non-empty
lines collected before it. -/
def scanLines (i : Nat) : List (List Char) → Option Nat × List (List Char)
  | [] => (none, [])
  | l :: ls =>
    if pDesign l then (some i, [])
    else if strip l = [] then scanLines (i + 1) ls
    else
      let r := scanLines (i + 1) ls
      (r.1, fmtLine i l :: r.2)

/-- Fragment of the preamble-violation message before the line number. -/
def violationMsg1 : List Char :=
  (" violated format requirements.\n\nForbidden preamble detected before \x27## Design\x27 (found at line ".toList)

/-- Fragment of the preamble-violation message after the line number. -/
def violationMsg2 : List Char := ("):\n".toList)

/-- Trailing fragment of the preamble-violation message. -/
def violationMsg3 : List Char :=
  ("\n\nThe response will be automatically cleaned.".toList)

/-- The distinct missing-header failure message (appended to the agent name). -/
def missingHeaderMsg : List Char :=
  (" response missing \x27## Design\x27 section header.".toList)

/-- Function `validate_response_format` from `src/test_validation.py` (the same
function is repeated verbatim in `demonstrate_fixes.py`,
`test_format_enforcement.py` and `generate_test_examples.py`): a response is
valid iff it starts with `## Design` after stripping leading whitespace;
otherwise the failure message depends on whether some line's trimmed form
starts with the header. -/
def validate_response_format (response agentName : List Char) : Bool × List Char :=
  if designHeader.isPrefixOf (lstrip response) then (true, [])
  else
    match scanLines 0 (splitLines response) with
    | (some d, ps) =>
        (false, agentName ++ violationMsg1 ++ natChars (d + 1) ++ violationMsg2
          ++ joinLines (ps.take 5) ++ violationMsg3)
    | (none, _) => (false, agentName ++ missingHeaderMsg)

/-- The four `design_start_patterns` of `extract_design_section` in
`src/demonstrate_fixes.py`, in source order. -/
def designStartPatterns : List (List Char) :=
  [("## Design\n".toList), ("### Design\n".toList),
   ("## Design\r\n".toList), ("### Design\r\n".toList)]

/-- The pattern-rebinding prologue of `extract_design_section`
(`demonstrate_fixes.py`): cut the response at the first occurrence of the
first pattern that occurs in it. -/
def preprocess (response : List Char) : List Char :=
  match designStartPatterns.find? (fun p => containsSub p response) with
  | some p => dropBeforeFirst p response
  | none => response

/-- A line whose trimmed form starts with `### Design` or `## Design`
(the loop's first condition in `demonstrate_fixes.py`). -/
def isDesignLine (l : List Char) : Bool :=
  ("### Design".toList).isPrefixOf (strip l) || designHeader.isPrefixOf (strip l)

/-- A line whose trimmed form starts with `### ` or `## ` (the loop's
heading test in `demonstrate_fixes.py`). -/
def isHeadingLine (l : List Char) : Bool :=
  ("### ".toList).isPrefixOf (strip l) || ("## ".toList).isPrefixOf (strip l)

/-- The fixed meta-section name list of `demonstrate_fixes.py`. -/
def metaSections : List (List Char) :=
  [("Rationale".toList), ("What I Changed".toList), ("What I Kept".toList),
   ("What I Incorporated".toList), ("Open Questions".toList),
   ("Convergence".toList), ("Prompt for".toList), ("Remaining".toList),
   ("What I Improved".toList), ("PROMPT_FOR".toList)]

/-- Python `any(meta in line for meta in meta_sections)`: the raw line
contains some meta-section name. -/
def hasMetaName (l : List Char) : Bool := metaSections.any (fun m => containsSub m l)

/-- The line-accumulation loop of `extract_design_section`
(`demonstrate_fixes.py`), with the `in_design` flag made explicit. -/
def extractLoop (inDesign : Bool) : List (List Char) → List (List Char)
  | [] => []
  | l :: ls =>
    if isDesignLine l then l :: extractLoop true ls
    else if inDesign && isHeadingLine l then
      (if hasMetaName l then [] else l :: extractLoop true ls)
    else if inDesign then l :: extractLoop true ls
    else extractLoop false ls

/-- The loop's break condition: a non-Design heading line containing a
meta-section name. -/
def stopLine (l : List Char) : Bool := !isDesignLine l && isHeadingLine l && hasMetaName l

/-- Function `extract_design_section` from `src/demonstrate_fixes.py`: cut at the
first design-start pattern, accumulate design lines until a meta-section
heading, strip the result, and fall back to the (rebound) response when the
stripped result is empty. -/
def extract_design_section (response : List Char) : List Char :=
  let r := preprocess response
  let design := strip (joinLines (extractLoop false (splitLines r)))
  if design = [] then r else design

namespace TestFormatEnforcement

/-- Function `extract_design_section` from `src/test_format_enforcement.py` (repeated
verbatim in `test_end_to_end.py` and `generate_test_examples.py`): return
everything from the first line whose trimmed form starts with `## Design`,
or the input unchanged when there is none. -/
def extract_design_section (response : List Char) : List Char :=
  match firstIdx pDesign (splitLines response) with
  | some k => joinLines ((splitLines response).drop k)
  | none => response

end TestFormatEnforcement

/-- The three-state debate status of the convergence engine. -/
inductive ConvergenceStatus where
  | DEBATING
  | CONVERGING
  | CONSENSUS
deriving DecidableEq

/-- A convergence signal counting as final. -/
def isFinalSignal (s : List Char) : Bool :=
  s == ("PROPOSING_FINAL".toList) || s == ("ACCEPTING_FINAL".toList)

/-- Modelled from the spec: `check_convergence` lives in the repository's
`debate` module, which is not under `src/` (only its tests
`src/mock_test.py` and `src/test_debate.py` import it); modelled from the
section 4.4 truth table — both signals final gives CONSENSUS, exactly one
final gives CONVERGING, both ITERATING gives DEBATING — with which those
tests agree. -/
def check_convergence (a b : List Char) : ConvergenceStatus :=
  if isFinalSignal a && isFinalSignal b then ConvergenceStatus.CONSENSUS
  else if isFinalSignal a || isFinalSignal b then ConvergenceStatus.CONVERGING
  else ConvergenceStatus.DEBATING

/-- Every character of the string is whitespace. -/
def allWs (s : List Char) : Bool := s.all isWs

/-- Lines surviving the extraction loop satisfy this predicate: a Design
heading, or not a heading at all, or a heading free of meta-section names. -/
def keepLine (l : List Char) : Bool := isDesignLine l || !isHeadingLine l || !hasMetaName l

/-- Index of the first header line, or the number of lines when there is
none: the region scanned for preamble lines by the validator. -/
def preambleIdx (L : List (List Char)) : Nat :=
  match firstIdx pDesign L with
  | some d => d
  | none => L.length

/-- The formatted non-empty lines collected by the validator's scan before
the first header line. -/
def preambleList (i : Nat) (L : List (List Char)) : List (List Char) :=
  ((enumF i (L.take (preambleIdx L))).filter
    (fun x => !(strip x.2).isEmpty)).map (fun x => fmtLine x.1 x.2)

/-- Drop leading all-whitespace lines and left-strip the first remaining
line: the effect of `lstrip` on a newline-join. -/
def trimLinesFront : List (List Char) → List (List Char)
  | [] => []
  | l :: ls => if allWs l then trimLinesFront ls else lstrip l :: ls

/-- Drop trailing all-whitespace lines and right-strip the last remaining
line: the effect of `rstrip` on a newline-join. -/
def trimLinesBack : List (List Char) → List (List Char)
  | [] => []
  | l :: ls =>
    match trimLinesBack ls with
    | [] => if allWs l then [] else [rstrip l]
    | m :: ms => l :: m :: ms

/-! Part: Whitespace and stripping lemmas -/

theorem lstrip_cons (c : Char) (s : List Char) :
    lstrip (c :: s) = if isWs c = true then lstrip s else c :: s := by
  simp [lstrip, List.dropWhile_cons]

theorem lstrip_eq_nil_iff (s : List Char) : lstrip s = [] ↔ allWs s = true := by
  simp [lstrip, allWs, List.dropWhile_eq_nil_iff, List.all_eq_true]

theorem rstrip_eq_nil_iff (s : List Char) : rstrip s = [] ↔ allWs s = true := by
  simp [rstrip, allWs, List.reverse_eq_nil_iff, List.dropWhile_eq_nil_iff,
    List.all_eq_true, List.mem_reverse]

theorem lstrip_append (x y : List Char) :
    lstrip (x ++ y) = if allWs x = true then lstrip y else lstrip x ++ y := by
  by_cases hx : allWs x = true
  · have h0 : lstrip x = [] := (lstrip_eq_nil_iff x).mpr hx
    have h1 : (List.dropWhile isWs x).isEmpty = true := by
      simp only [List.isEmpty_iff]
      exact h0
    simp only [lstrip]
    rw [List.dropWhile_append, if_pos h1, if_pos hx]
  · have h0 : ¬ lstrip x = [] := fun hh => hx ((lstrip_eq_nil_iff x).mp hh)
    have h1 : ¬ (List.dropWhile isWs x).isEmpty = true := by
      simp only [List.isEmpty_iff]
      exact h0
    simp only [lstrip]
    rw [List.dropWhile_append, if_neg h1, if_neg hx]

theorem rstrip_append (x y : List Char) :
    rstrip (x ++ y) = if rstrip y = [] then rstrip x else x ++ rstrip y := by
  by_cases h : List.dropWhile isWs y.reverse = []
  · have hy : rstrip y = [] := by simp [rstrip, h]
    rw [if_pos hy]
    simp only [rstrip, List.reverse_append, List.dropWhile_append, List.isEmpty_iff]
    rw [if_pos h]
  · have hy : ¬ rstrip y = [] := by
      simp only [rstrip, List.reverse_eq_nil_iff]
      exact h
    rw [if_neg hy]
    simp only [rstrip, List.reverse_append, List.dropWhile_append, List.isEmpty_iff]
    rw [if_neg h, List.reverse_append, List.reverse_reverse]

theorem rstrip_single (c : Char) : rstrip [c] = if isWs c = true then [] else [c] := by
  by_cases h : isWs c = true <;> simp [rstrip, List.dropWhile_cons, h]

theorem rstrip_cons (c : Char) (t : List Char) :
    rstrip (c :: t) =
      if rstrip t = [] then (if isWs c = true then [] else [c]) else c :: rstrip t := by
  have h := rstrip_append [c] t
  rw [List.singleton_append] at h
  rw [h, rstrip_single]
  by_cases ht : rstrip t = [] <;> simp [ht]

theorem dropWhile_idem {α : Type} (p : α → Bool) (l : List α) :
    List.dropWhile p (List.dropWhile p l) = List.dropWhile p l := by
  induction l with
  | nil => rfl
  | cons a t ih =>
    by_cases h : p a = true
    · simp [List.dropWhile_cons, h, ih]
    · simp [List.dropWhile_cons, h]

theorem lstrip_lstrip (s : List Char) : lstrip (lstrip s) = lstrip s :=
  dropWhile_idem _ _

theorem rstrip_rstrip (s : List Char) : rstrip (rstrip s) = rstrip s := by
  simp [rstrip, List.reverse_reverse, dropWhile_idem]

theorem dropWhile_head_false {α : Type} {p : α → Bool} {l : List α} {c : α} {t : List α}
    (h : List.dropWhile p l = c :: t) : p c = false := by
  induction l with
  | nil => simp [List.dropWhile] at h
  | cons a l' ih =>
    rw [List.dropWhile_cons] at h
    split at h
    · exact ih h
    · cases h
      rename_i hpa
      exact Bool.not_eq_true _ ▸ eq_false_of_ne_true hpa

theorem lstrip_head_false {s : List Char} {c : Char} {t : List Char}
    (h : lstrip s = c :: t) : isWs c = false :=
  dropWhile_head_false h

theorem lstrip_of_head_false {c : Char} (t : List Char) (h : isWs c = false) :
    lstrip (c :: t) = c :: t := by
  rw [lstrip_cons, if_neg (by simp [h])]

theorem lstrip_rstrip_comm (s : List Char) : lstrip (rstrip s) = rstrip (lstrip s) := by
  have hs : List.takeWhile isWs s ++ lstrip s = s := List.takeWhile_append_dropWhile isWs s
  have hw : allWs (List.takeWhile isWs s) = true := by
    simp only [allWs, List.all_eq_true]
    exact fun x hx => List.mem_takeWhile_imp hx
  cases hu : lstrip s with
  | nil =>
    have hall : allWs s = true := (lstrip_eq_nil_iff s).mp hu
    have h1 : rstrip s = [] := (rstrip_eq_nil_iff s).mpr hall
    rw [h1]
    rfl
  | cons c u' =>
    have hc : isWs c = false := lstrip_head_false hu
    have hcu : ¬ rstrip (c :: u') = [] := by
      intro hh
      have h2 := (rstrip_eq_nil_iff _).mp hh
      simp only [allWs, List.all_eq_true] at h2
      have h3 := h2 c (List.mem_cons_self _ _)
      rw [hc] at h3
      exact Bool.false_ne_true h3
    have h2 : rstrip s = List.takeWhile isWs s ++ rstrip (c :: u') := by
      conv_lhs => rw [← hs, hu]
      rw [rstrip_append, if_neg hcu]
    rw [h2, lstrip_append, if_pos hw, rstrip_cons]
    by_cases h3 : rstrip u' = []
    · rw [if_pos h3, if_neg (by simp [hc]), lstrip_of_head_false _ hc]
    · rw [if_neg h3, lstrip_of_head_false _ hc]

theorem strip_lstrip (s : List Char) : strip (lstrip s) = strip s := by
  simp [strip, lstrip_lstrip]

theorem strip_rstrip (s : List Char) : strip (rstrip s) = strip s := by
  show rstrip (lstrip (rstrip s)) = rstrip (lstrip s)
  rw [lstrip_rstrip_comm, rstrip_rstrip]

theorem strip_idem (s : List Char) : strip (strip s) = strip s := by
  show strip (rstrip (lstrip s)) = strip s
  rw [strip_rstrip, strip_lstrip]

theorem lstrip_strip (s : List Char) : lstrip (strip s) = strip s := by
  show lstrip (rstrip (lstrip s)) = rstrip (lstrip s)
  rw [lstrip_rstrip_comm, lstrip_lstrip]

theorem rstrip_strip (s : List Char) : rstrip (strip s) = strip s := by
  show rstrip (rstrip (lstrip s)) = rstrip (lstrip s)
  rw [rstrip_rstrip]

theorem strip_eq_nil_iff (s : List Char) : strip s = [] ↔ allWs s = true := by
  rw [strip, rstrip_eq_nil_iff, ← lstrip_eq_nil_iff, lstrip_lstrip, lstrip_eq_nil_iff]

theorem lstrip_suffix (s : List Char) : lstrip s <:+ s :=
  List.dropWhile_suffix _

theorem rstrip_prefix_self (s : List Char) : rstrip s <+: s := by
  have h : List.dropWhile isWs s.reverse <:+ s.reverse := List.dropWhile_suffix _
  have h2 := List.reverse_prefix.mpr h
  rwa [List.reverse_reverse] at h2

theorem strip_infix_self (s : List Char) : strip s <:+: s :=
  List.infix_iff_prefix_suffix.mpr ⟨lstrip s, rstrip_prefix_self _, lstrip_suffix _⟩

theorem prefix_through_rstrip {p x : List Char} (hp : rstrip p = p) (h : p <+: x) :
    p <+: rstrip x := by
  obtain ⟨m, rfl⟩ := h
  rw [rstrip_append]
  split
  · rw [hp]
  · exact List.prefix_append _ _

/-! Part: Line splitting and joining -/

theorem splitLines_ne_nil (s : List Char) : splitLines s ≠ [] := by
  cases s with
  | nil => simp [splitLines]
  | cons c t =>
    simp only [splitLines]
    split <;> simp

theorem splitLines_no_newline (s : List Char) : ∀ l ∈ splitLines s, '\n' ∉ l := by
  induction s with
  | nil =>
    intro l hl
    simp only [splitLines, List.mem_singleton] at hl
    simp [hl]
  | cons c t ih =>
    intro l hl
    simp only [splitLines] at hl
    by_cases hc : c = '\n'
    · rw [if_pos hc] at hl
      rcases List.mem_cons.mp hl with h | h
      · simp [h]
      · exact ih l h
    · rw [if_neg hc] at hl
      rcases List.mem_cons.mp hl with h | h
      · subst h
        intro hmem
        rcases List.mem_cons.mp hmem with h2 | h2
        · exact hc h2.symm
        · cases hsp : splitLines t with
          | nil => exact splitLines_ne_nil t hsp
          | cons a as =>
            rw [hsp] at h2
            exact ih a (by rw [hsp]; exact List.mem_cons_self _ _) (by simpa using h2)
      · cases hsp : splitLines t with
        | nil => rw [hsp] at h; simp at h
        | cons a as =>
          rw [hsp] at h
          exact ih l (by rw [hsp]; exact List.mem_cons_of_mem _ (by simpa using h))

theorem splitLines_single {x : List Char} (h : '\n' ∉ x) : splitLines x = [x] := by
  induction x with
  | nil => rfl
  | cons c t ih =>
    have hc : c ≠ '\n' := fun hh => h (hh ▸ List.mem_cons_self _ _)
    have ht : '\n' ∉ t := fun hh => h (List.mem_cons_of_mem _ hh)
    simp only [splitLines]
    rw [if_neg hc, ih ht]
    rfl

theorem splitLines_cons_newline (t : List Char) :
    splitLines ('\n' :: t) = [] :: splitLines t := by
  simp [splitLines]

theorem splitLines_cons_other {c : Char} (t : List Char) (hc : c ≠ '\n') :
    splitLines (c :: t) = (c :: (splitLines t).headI) :: (splitLines t).tail := by
  simp [splitLines, hc]

theorem splitLines_append_newline (x y : List Char) :
    splitLines (x ++ '\n' :: y) = splitLines x ++ splitLines y := by
  induction x with
  | nil => simp [splitLines]
  | cons c t ih =>
    by_cases hc : c = '\n'
    · subst hc
      rw [List.cons_append, splitLines_cons_newline, splitLines_cons_newline, ih,
        List.cons_append]
    · rw [List.cons_append, splitLines_cons_other _ hc, splitLines_cons_other _ hc, ih]
      cases hsp : splitLines t with
      | nil => exact absurd hsp (splitLines_ne_nil t)
      | cons a as => simp

theorem splitLines_append_no_newline {x : List Char} (y : List Char) (h : '\n' ∉ x) :
    splitLines (x ++ y) = (x ++ (splitLines y).headI) :: (splitLines y).tail := by
  induction x with
  | nil =>
    simp only [List.nil_append]
    cases hsp : splitLines y with
    | nil => exact absurd hsp (splitLines_ne_nil y)
    | cons a as => simp
  | cons c t ih =>
    have hc : c ≠ '\n' := fun hh => h (hh ▸ List.mem_cons_self _ _)
    have ht : '\n' ∉ t := fun hh => h (List.mem_cons_of_mem _ hh)
    rw [List.cons_append, splitLines_cons_other _ hc, ih ht]
    simp

theorem joinLines_cons_cons (l l2 : List Char) (ls : List (List Char)) :
    joinLines (l :: l2 :: ls) = l ++ '\n' :: joinLines (l2 :: ls) := rfl

theorem joinLines_splitLines (s : List Char) : joinLines (splitLines s) = s := by
  induction s with
  | nil => rfl
  | cons c t ih =>
    by_cases hc : c = '\n'
    · subst hc
      rw [splitLines_cons_newline]
      cases hsp : splitLines t with
      | nil => exact absurd hsp (splitLines_ne_nil t)
      | cons a as =>
        rw [hsp] at ih
        rw [joinLines_cons_cons]
        simpa using ih
    · rw [splitLines_cons_other _ hc]
      cases hsp : splitLines t with
      | nil => exact absurd hsp (splitLines_ne_nil t)
      | cons a as =>
        rw [hsp] at ih
        cases as with
        | nil =>
          simp only [List.headI, List.tail]
          simp only [joinLines] at ih ⊢
          rw [ih]
        | cons b bs =>
          simp only [List.headI, List.tail]
          rw [joinLines_cons_cons]
          rw [joinLines_cons_cons] at ih
          rw [List.cons_append, ih]

theorem splitLines_joinLines {E : List (List Char)} (hne : E ≠ [])
    (h : ∀ l ∈ E, '\n' ∉ l) : splitLines (joinLines E) = E := by
  induction E with
  | nil => exact absurd rfl hne
  | cons a as ih =>
    cases as with
    | nil =>
      show splitLines (joinLines [a]) = [a]
      exact splitLines_single (h a (List.mem_cons_self _ _))
    | cons b bs =>
      rw [joinLines_cons_cons, splitLines_append_newline,
        splitLines_single (h a (List.mem_cons_self _ _)),
        ih (by simp) (fun l hl => h l (List.mem_cons_of_mem _ hl))]
      rfl

theorem joinLines_append {A B : List (List Char)} (hA : A ≠ []) (hB : B ≠ []) :
    joinLines (A ++ B) = joinLines A ++ '\n' :: joinLines B := by
  induction A with
  | nil => exact absurd rfl hA
  | cons a as ih =>
    cases as with
    | nil =>
      cases B with
      | nil => exact absurd rfl hB
      | cons b bs => rfl
    | cons a2 as2 =>
      rw [List.cons_append, List.cons_append, joinLines_cons_cons, ← List.cons_append,
        ih (by simp), joinLines_cons_cons]
      simp

theorem joinLines_infix_middle (A B C : List (List Char)) :
    joinLines B <:+: joinLines (A ++ B ++ C) := by
  by_cases hB : B = []
  · subst hB
    exact List.nil_infix
  by_cases hA : A = []
  · subst hA
    by_cases hC : C = []
    · subst hC
      simp
    · rw [List.nil_append, joinLines_append hB hC]
      exact ((List.prefix_append _ _).trans (List.prefix_rfl)).isInfix
  · by_cases hC : C = []
    · subst hC
      rw [List.append_nil, joinLines_append hA hB]
      exact ⟨joinLines A ++ ['\n'], [], by simp⟩
    · rw [joinLines_append (by simp [hA]) hC, joinLines_append hA hB]
      exact ⟨joinLines A ++ ['\n'], '\n' :: joinLines C, by simp⟩

/-! Part: Substring containment and searching -/

theorem containsSub_iff (p s : List Char) : containsSub p s = true ↔ p <:+: s := by
  induction s with
  | nil =>
    show p.isPrefixOf [] = true ↔ p <:+: []
    rw [ List.isPrefixOf_iff_prefix, List.infix_nil, List.prefix_nil]
  | cons c t ih =>
    simp only [containsSub, Bool.or_eq_true, List.isPrefixOf_iff_prefix, ih]
    exact (List.infix_cons_iff).symm

theorem containsSub_mono {p s1 s2 : List Char} (h : s1 <:+: s2)
    (hc : containsSub p s1 = true) : containsSub p s2 = true :=
  (containsSub_iff _ _).mpr (((containsSub_iff _ _).mp hc).trans h)

theorem containsSub_of_pattern {q p s : List Char} (h : q <:+: p)
    (hc : containsSub p s = true) : containsSub q s = true :=
  (containsSub_iff _ _).mpr (h.trans ((containsSub_iff _ _).mp hc))

theorem dropBeforeFirst_suffix (p s : List Char) : dropBeforeFirst p s <:+ s := by
  induction s with
  | nil => simp [dropBeforeFirst]
  | cons c t ih =>
    simp only [dropBeforeFirst]
    split
    · exact List.suffix_refl _
    · exact ih.trans (List.suffix_cons _ _)

theorem dropBeforeFirst_starts {p s : List Char} (h : containsSub p s = true) :
    p <+: dropBeforeFirst p s := by
  induction s with
  | nil =>
    have h2 : p <+: [] := List.isPrefixOf_iff_prefix.mp h
    simpa [dropBeforeFirst] using h2
  | cons c t ih =>
    simp only [dropBeforeFirst]
    split
    · next hp => exact List.isPrefixOf_iff_prefix.mp hp
    · next hp =>
      apply ih
      simp only [containsSub, Bool.or_eq_true] at h
      rcases h with h | h
      · exact absurd h hp
      · exact h

theorem dropBeforeFirst_eq_self {p s : List Char} (h : p <+: s) :
    dropBeforeFirst p s = s := by
  cases s with
  | nil => rfl
  | cons c t =>
    simp only [dropBeforeFirst]
    rw [if_pos ( List.isPrefixOf_iff_prefix.mpr h)]

theorem firstIdx_eq_none_iff {α : Type} (p : α → Bool) (L : List α) :
    firstIdx p L = none ↔ ∀ a ∈ L, p a = false := by
  induction L with
  | nil => simp [firstIdx]
  | cons a l ih =>
    simp only [firstIdx]
    by_cases h : p a = true
    · simp [h]
    · have hf : p a = false := eq_false_of_ne_true h
      simp [hf, ih]

theorem firstIdx_ne_none_of_mem {α : Type} {q : α → Bool} {L : List α} {a : α}
    (ha : a ∈ L) (hq : q a = true) : firstIdx q L ≠ none := by
  intro h
  rw [firstIdx_eq_none_iff] at h
  rw [h a ha] at hq
  exact Bool.false_ne_true hq

theorem firstIdx_split_mem {q : List Char → Bool} (P : List (List Char))
    (hd : List Char) (tail : List (List Char)) (hq : q hd = true) :
    ∃ A l0 rest, P ++ hd :: tail = A ++ l0 :: rest ∧ (∀ l ∈ A, q l = false) ∧
      q l0 = true ∧ (l0 ∈ P ∨ (l0 = hd ∧ rest = tail)) := by
  induction P with
  | nil => exact ⟨[], hd, tail, rfl, by simp, hq, Or.inr ⟨rfl, rfl⟩⟩
  | cons x P' ih =>
    by_cases hx : q x = true
    · exact ⟨[], x, P' ++ hd :: tail, rfl, by simp, hx, Or.inl (List.mem_cons_self _ _)⟩
    · obtain ⟨A, l0, rest, hsplit, hA, hl0, hmem⟩ := ih
      refine ⟨x :: A, l0, rest, by rw [List.cons_append, hsplit]; rfl, ?_, hl0, ?_⟩
      · intro l hl
        rcases List.mem_cons.mp hl with h' | h'
        · subst h'
          exact eq_false_of_ne_true hx
        · exact hA l h'
      · rcases hmem with h' | h'
        · exact Or.inl (List.mem_cons_of_mem _ h')
        · exact Or.inr h'

/-! Part: The validator's scan loop, characterized -/

theorem preambleIdx_cons_design {l : List Char} (ls : List (List Char))
    (hd : pDesign l = true) : preambleIdx (l :: ls) = 0 := by
  simp [preambleIdx, firstIdx, hd]

theorem preambleIdx_cons_not {l : List Char} (ls : List (List Char))
    (hd : pDesign l = false) : preambleIdx (l :: ls) = preambleIdx ls + 1 := by
  simp only [preambleIdx, firstIdx, hd]
  rw [if_neg (by simp)]
  cases firstIdx pDesign ls <;> simp

theorem preambleList_cons_design {l : List Char} (i : Nat) (ls : List (List Char))
    (hd : pDesign l = true) : preambleList i (l :: ls) = [] := by
  simp [preambleList, preambleIdx_cons_design ls hd, enumF]

theorem preambleList_cons_empty {l : List Char} (i : Nat) (ls : List (List Char))
    (hd : pDesign l = false) (he : strip l = []) :
    preambleList i (l :: ls) = preambleList (i + 1) ls := by
  simp only [preambleList, preambleIdx_cons_not ls hd, List.take_succ_cons, enumF,
    List.filter_cons]
  rw [if_neg (by simp [he])]

theorem preambleList_cons_keep {l : List Char} (i : Nat) (ls : List (List Char))
    (hd : pDesign l = false) (he : ¬ strip l = []) :
    preambleList i (l :: ls) = fmtLine i l :: preambleList (i + 1) ls := by
  simp only [preambleList, preambleIdx_cons_not ls hd, List.take_succ_cons, enumF,
    List.filter_cons]
  rw [if_pos (by simp [he])]
  rfl

theorem scanLines_eq (i : Nat) (L : List (List Char)) :
    scanLines i L = ((firstIdx pDesign L).map (fun d => i + d), preambleList i L) := by
  induction L generalizing i with
  | nil => simp [scanLines, firstIdx, preambleList, preambleIdx, enumF]
  | cons l ls ih =>
    by_cases hd : pDesign l = true
    · rw [show scanLines i (l :: ls) = (some i, []) from by simp [scanLines, hd]]
      rw [preambleList_cons_design i ls hd]
      simp [firstIdx, hd]
    · have hdf : pDesign l = false := eq_false_of_ne_true hd
      have hfi : firstIdx pDesign (l :: ls) = (firstIdx pDesign ls).map (fun d => d + 1) := by
        simp [firstIdx, hdf]
      by_cases he : strip l = []
      · rw [show scanLines i (l :: ls) = scanLines (i + 1) ls from by
          simp [scanLines, hd, he]]
        rw [ih, preambleList_cons_empty i ls hdf he, hfi]
        cases hfj : firstIdx pDesign ls with
        | none => rfl
        | some j =>
          show (some (i + 1 + j), preambleList (i + 1) ls)
            = (some (i + (j + 1)), preambleList (i + 1) ls)
          rw [show i + 1 + j = i + (j + 1) from by omega]
      · rw [show scanLines i (l :: ls) =
            ((scanLines (i + 1) ls).1, fmtLine i l :: (scanLines (i + 1) ls).2) from by
          simp [scanLines, hd, he]]
        rw [ih, preambleList_cons_keep i ls hdf he, hfi]
        cases hfj : firstIdx pDesign ls with
        | none => rfl
        | some j =>
          show (some (i + 1 + j), fmtLine i l :: preambleList (i + 1) ls)
            = (some (i + (j + 1)), fmtLine i l :: preambleList (i + 1) ls)
          rw [show i + 1 + j = i + (j + 1) from by omega]

/-! Part: The extraction loop -/

theorem extractLoop_cons_design {l : List Char} (b : Bool) (ls : List (List Char))
    (h : isDesignLine l = true) : extractLoop b (l :: ls) = l :: extractLoop true ls := by
  simp [extractLoop, h]

theorem extractLoop_false_skip {l : List Char} (ls : List (List Char))
    (h : isDesignLine l = false) : extractLoop false (l :: ls) = extractLoop false ls := by
  simp [extractLoop, h]

theorem extractLoop_true_eq_takeWhile (L : List (List Char)) :
    extractLoop true L = L.takeWhile (fun l => !stopLine l) := by
  induction L with
  | nil => rfl
  | cons l ls ih =>
    by_cases h1 : isDesignLine l = true
    · rw [extractLoop_cons_design true ls h1, List.takeWhile_cons,
        if_pos (by simp [stopLine, h1]), ih]
    · by_cases h2 : isHeadingLine l = true
      · by_cases h3 : hasMetaName l = true
        · rw [show extractLoop true (l :: ls) = [] from by simp [extractLoop, h1, h2, h3],
            List.takeWhile_cons, if_neg (by simp [stopLine, h1, h2, h3])]
        · rw [show extractLoop true (l :: ls) = l :: extractLoop true ls from by
            simp [extractLoop, h1, h2, h3], List.takeWhile_cons,
            if_pos (by simp [stopLine, h1, h2, h3]), ih]
      · rw [show extractLoop true (l :: ls) = l :: extractLoop true ls from by
          simp [extractLoop, h1, h2], List.takeWhile_cons,
          if_pos (by simp [stopLine, h1, h2]), ih]

theorem extractLoop_false_append {A : List (List Char)} (L : List (List Char))
    (h : ∀ l ∈ A, isDesignLine l = false) :
    extractLoop false (A ++ L) = extractLoop false L := by
  induction A with
  | nil => rfl
  | cons a A' ih =>
    rw [List.cons_append, extractLoop_false_skip _ (h a (List.mem_cons_self _ _)),
      ih (fun l hl => h l (List.mem_cons_of_mem _ hl))]

theorem extractLoop_false_nil {L : List (List Char)}
    (h : ∀ l ∈ L, isDesignLine l = false) : extractLoop false L = [] := by
  induction L with
  | nil => rfl
  | cons l ls ih =>
    rw [extractLoop_false_skip _ (h l (List.mem_cons_self _ _)),
      ih (fun x hx => h x (List.mem_cons_of_mem _ hx))]

theorem extractLoop_false_head_design {L : List (List Char)} {x : List Char}
    {xs : List (List Char)} (h : extractLoop false L = x :: xs) :
    isDesignLine x = true := by
  induction L with
  | nil => simp [extractLoop] at h
  | cons l ls ih =>
    by_cases h1 : isDesignLine l = true
    · rw [extractLoop_cons_design false ls h1] at h
      injection h with hx hxs
      exact hx ▸ h1
    · rw [extractLoop_false_skip ls (eq_false_of_ne_true h1)] at h
      exact ih h

theorem extractLoop_mem_keep {b : Bool} {L : List (List Char)} :
    ∀ l ∈ extractLoop b L, keepLine l = true := by
  induction L generalizing b with
  | nil => intro l hl; simp [extractLoop] at hl
  | cons x ls ih =>
    intro l hl
    by_cases h1 : isDesignLine x = true
    · rw [extractLoop_cons_design b ls h1] at hl
      rcases List.mem_cons.mp hl with h' | h'
      · subst h'
        simp [keepLine, h1]
      · exact ih l h'
    · cases b with
      | false =>
        rw [extractLoop_false_skip ls (eq_false_of_ne_true h1)] at hl
        exact ih l hl
      | true =>
        by_cases h2 : isHeadingLine x = true
        · by_cases h3 : hasMetaName x = true
          · rw [show extractLoop true (x :: ls) = [] from by simp [extractLoop, h1, h2, h3]] at hl
            simp at hl
          · rw [show extractLoop true (x :: ls) = x :: extractLoop true ls from by
              simp [extractLoop, h1, h2, h3]] at hl
            rcases List.mem_cons.mp hl with h' | h'
            · subst h'
              simp [keepLine, h3]
            · exact ih l h'
        · rw [show extractLoop true (x :: ls) = x :: extractLoop true ls from by
            simp [extractLoop, h1, h2]] at hl
          rcases List.mem_cons.mp hl with h' | h'
          · subst h'
            simp [keepLine, h2]
          · exact ih l h'

theorem extractLoop_mem_subset {b : Bool} {L : List (List Char)} :
    ∀ l ∈ extractLoop b L, l ∈ L := by
  induction L generalizing b with
  | nil => intro l hl; simp [extractLoop] at hl
  | cons x ls ih =>
    intro l hl
    by_cases h1 : isDesignLine x = true
    · rw [extractLoop_cons_design b ls h1] at hl
      rcases List.mem_cons.mp hl with h' | h'
      · exact h' ▸ List.mem_cons_self _ _
      · exact List.mem_cons_of_mem _ (ih l h')
    · cases b with
      | false =>
        rw [extractLoop_false_skip ls (eq_false_of_ne_true h1)] at hl
        exact List.mem_cons_of_mem _ (ih l hl)
      | true =>
        by_cases h2 : isHeadingLine x = true
        · by_cases h3 : hasMetaName x = true
          · rw [show extractLoop true (x :: ls) = [] from by simp [extractLoop, h1, h2, h3]] at hl
            simp at hl
          · rw [show extractLoop true (x :: ls) = x :: extractLoop true ls from by
              simp [extractLoop, h1, h2, h3]] at hl
            rcases List.mem_cons.mp hl with h' | h'
            · exact h' ▸ List.mem_cons_self _ _
            · exact List.mem_cons_of_mem _ (ih l h')
        · rw [show extractLoop true (x :: ls) = x :: extractLoop true ls from by
            simp [extractLoop, h1, h2]] at hl
          rcases List.mem_cons.mp hl with h' | h'
          · exact h' ▸ List.mem_cons_self _ _
          · exact List.mem_cons_of_mem _ (ih l h')

theorem extractLoop_true_of_all_keep {L : List (List Char)}
    (h : ∀ l ∈ L, keepLine l = true) : extractLoop true L = L := by
  rw [extractLoop_true_eq_takeWhile]
  apply List.takeWhile_eq_self_iff.mpr
  intro l hl
  have hk := h l hl
  simp only [keepLine] at hk
  cases hd : isDesignLine l with
  | true => simp [stopLine, hd]
  | false =>
    rw [hd] at hk
    cases hh : isHeadingLine l with
    | false => simp [stopLine, hh]
    | true =>
      rw [hh] at hk
      simp at hk
      simp [stopLine, hd, hh, hk]

theorem exists_infix_extractLoop_false (L : List (List Char)) :
    ∃ A C, L = A ++ extractLoop false L ++ C := by
  induction L with
  | nil => exact ⟨[], [], rfl⟩
  | cons l ls ih =>
    by_cases h : isDesignLine l = true
    · refine ⟨[], List.dropWhile (fun x => !stopLine x) ls, ?_⟩
      rw [extractLoop_cons_design false ls h, extractLoop_true_eq_takeWhile]
      simp [List.takeWhile_append_dropWhile]
    · obtain ⟨A, C, hac⟩ := ih
      refine ⟨l :: A, C, ?_⟩
      rw [extractLoop_false_skip ls (eq_false_of_ne_true h), List.cons_append,
        List.cons_append, ← hac]

theorem joinLines_extractLoop_middle (L : List (List Char)) :
    joinLines (extractLoop false L) <:+: joinLines L := by
  obtain ⟨A, C, h⟩ := exists_infix_extractLoop_false L
  conv_rhs => rw [h]
  exact joinLines_infix_middle A _ C

/-! Part: Stripping a join, line by line -/

theorem trimLinesBack_cons_nil {ls : List (List Char)} (l : List Char)
    (h : trimLinesBack ls = []) :
    trimLinesBack (l :: ls) = if allWs l = true then [] else [rstrip l] := by
  simp [trimLinesBack, h]

theorem trimLinesBack_cons_cons {ls : List (List Char)} (l : List Char)
    {m : List Char} {ms : List (List Char)} (h : trimLinesBack ls = m :: ms) :
    trimLinesBack (l :: ls) = l :: m :: ms := by
  simp [trimLinesBack, h]

theorem trimLinesFront_cons_not {l : List Char} (ls : List (List Char))
    (h : allWs l = false) : trimLinesFront (l :: ls) = lstrip l :: ls := by
  simp [trimLinesFront, h]

theorem lstrip_joinLines (E : List (List Char)) :
    lstrip (joinLines E) = joinLines (trimLinesFront E) := by
  induction E with
  | nil => rfl
  | cons l ls ih =>
    cases ls with
    | nil =>
      show lstrip l = joinLines (trimLinesFront [l])
      by_cases h : allWs l = true
      · rw [show trimLinesFront [l] = [] from by simp [trimLinesFront, h]]
        rw [(lstrip_eq_nil_iff l).mpr h]
        rfl
      · rw [show trimLinesFront [l] = [lstrip l] from by simp [trimLinesFront, h]]
        rfl
    | cons l2 ls2 =>
      rw [joinLines_cons_cons]
      by_cases h : allWs l = true
      · rw [lstrip_append, if_pos h,
          show lstrip ('\n' :: joinLines (l2 :: ls2)) = lstrip (joinLines (l2 :: ls2)) from by
            rw [lstrip_cons, if_pos (by decide : isWs '\n' = true)],
          ih, show trimLinesFront (l :: l2 :: ls2) = trimLinesFront (l2 :: ls2) from by
            simp [trimLinesFront, h]]
      · rw [lstrip_append, if_neg h,
          show trimLinesFront (l :: l2 :: ls2) = lstrip l :: l2 :: ls2 from by
            simp [trimLinesFront, h], joinLines_cons_cons]

theorem joinLines_trimLinesBack_ne_nil {E : List (List Char)} {m : List Char}
    {ms : List (List Char)} (h : trimLinesBack E = m :: ms) :
    joinLines (m :: ms) ≠ [] := by
  cases E with
  | nil => simp [trimLinesBack] at h
  | cons l ls =>
    cases htb : trimLinesBack ls with
    | nil =>
      rw [trimLinesBack_cons_nil l htb] at h
      by_cases ha : allWs l = true
      · rw [if_pos ha] at h
        cases h
      · rw [if_neg ha] at h
        injection h with h1 h2
        subst h1
        subst h2
        show rstrip l ≠ []
        intro hh
        exact ha ((rstrip_eq_nil_iff l).mp hh)
    | cons m' ms' =>
      rw [trimLinesBack_cons_cons l htb] at h
      injection h with h1 h2
      subst h1
      subst h2
      rw [joinLines_cons_cons]
      simp

theorem rstrip_joinLines (E : List (List Char)) :
    rstrip (joinLines E) = joinLines (trimLinesBack E) := by
  induction E with
  | nil => rfl
  | cons l ls ih =>
    cases ls with
    | nil =>
      show rstrip l = joinLines (trimLinesBack [l])
      rw [trimLinesBack_cons_nil l (show trimLinesBack [] = [] from rfl)]
      by_cases h : allWs l = true
      · rw [if_pos h, (rstrip_eq_nil_iff l).mpr h]
        rfl
      · rw [if_neg h]
        rfl
    | cons l2 ls2 =>
      rw [joinLines_cons_cons, rstrip_append, rstrip_cons]
      by_cases hJ : rstrip (joinLines (l2 :: ls2)) = []
      · rw [if_pos hJ, if_pos (by decide : isWs '\n' = true), if_pos rfl]
        have htb : trimLinesBack (l2 :: ls2) = [] := by
          cases htb2 : trimLinesBack (l2 :: ls2) with
          | nil => rfl
          | cons m ms =>
            rw [ih, htb2] at hJ
            exact absurd hJ (joinLines_trimLinesBack_ne_nil htb2)
        rw [trimLinesBack_cons_nil l htb]
        by_cases h : allWs l = true
        · rw [if_pos h, (rstrip_eq_nil_iff l).mpr h]
          rfl
        · rw [if_neg h]
          rfl
      · rw [if_neg hJ, if_neg (by simp)]
        have h2 : ∃ m ms, trimLinesBack (l2 :: ls2) = m :: ms := by
          cases htb2 : trimLinesBack (l2 :: ls2) with
          | nil =>
            rw [ih, htb2] at hJ
            exact absurd rfl hJ
          | cons m ms => exact ⟨m, ms, rfl⟩
        obtain ⟨m, ms, htb2⟩ := h2
        rw [ih, htb2, trimLinesBack_cons_cons l htb2, joinLines_cons_cons]

theorem strip_joinLines (E : List (List Char)) :
    strip (joinLines E) = joinLines (trimLinesBack (trimLinesFront E)) := by
  rw [strip, lstrip_joinLines, rstrip_joinLines]

theorem mem_trimLinesFront {E : List (List Char)} {x : List Char}
    (h : x ∈ trimLinesFront E) : ∃ y ∈ E, x = y ∨ x = lstrip y := by
  induction E with
  | nil => simp [trimLinesFront] at h
  | cons l ls ih =>
    simp only [trimLinesFront] at h
    by_cases ha : allWs l = true
    · rw [if_pos ha] at h
      obtain ⟨y, hy, hxy⟩ := ih h
      exact ⟨y, List.mem_cons_of_mem _ hy, hxy⟩
    · rw [if_neg ha] at h
      rcases List.mem_cons.mp h with h' | h'
      · exact ⟨l, List.mem_cons_self _ _, Or.inr h'⟩
      · exact ⟨x, List.mem_cons_of_mem _ h', Or.inl rfl⟩

theorem mem_trimLinesBack {E : List (List Char)} {x : List Char}
    (h : x ∈ trimLinesBack E) : ∃ y ∈ E, x = y ∨ x = rstrip y := by
  induction E with
  | nil => simp [trimLinesBack] at h
  | cons l ls ih =>
    cases htb : trimLinesBack ls with
    | nil =>
      rw [trimLinesBack_cons_nil l htb] at h
      by_cases ha : allWs l = true
      · rw [if_pos ha] at h
        simp at h
      · rw [if_neg ha] at h
        rw [List.mem_singleton] at h
        exact ⟨l, List.mem_cons_self _ _, Or.inr h⟩
    | cons m ms =>
      rw [trimLinesBack_cons_cons l htb] at h
      rcases List.mem_cons.mp h with h' | h'
      · exact ⟨l, List.mem_cons_self _ _, Or.inl h'⟩
      · have hx : x ∈ trimLinesBack ls := by
          rw [htb]
          exact h'
        obtain ⟨y, hy, hxy⟩ := ih hx
        exact ⟨y, List.mem_cons_of_mem _ hy, hxy⟩

theorem trimLinesBack_cons_cases (x : List Char) (L : List (List Char)) :
    trimLinesBack (x :: L) = [] ∨ trimLinesBack (x :: L) = [rstrip x] ∨
      ∃ ms, trimLinesBack (x :: L) = x :: ms := by
  cases htb : trimLinesBack L with
  | nil =>
    rw [trimLinesBack_cons_nil x htb]
    by_cases h : allWs x = true
    · exact Or.inl (if_pos h)
    · exact Or.inr (Or.inl (if_neg h))
  | cons m ms => exact Or.inr (Or.inr ⟨m :: ms, trimLinesBack_cons_cons x htb⟩)

/-! Part: Predicates factor through strip -/

theorem isDesignLine_congr_strip {x y : List Char} (h : strip x = strip y) :
    isDesignLine x = isDesignLine y := by
  simp [isDesignLine, h]

theorem isHeadingLine_congr_strip {x y : List Char} (h : strip x = strip y) :
    isHeadingLine x = isHeadingLine y := by
  simp [isHeadingLine, h]

theorem pDesign_congr_strip {x y : List Char} (h : strip x = strip y) :
    pDesign x = pDesign y := by
  simp [pDesign, h]

theorem hasMetaName_mono {x y : List Char} (hinf : x <:+: y)
    (h : hasMetaName x = true) : hasMetaName y = true := by
  simp only [hasMetaName, List.any_eq_true] at h ⊢
  obtain ⟨m, hm, hc⟩ := h
  exact ⟨m, hm, containsSub_mono hinf hc⟩

theorem keepLine_of_within {x y : List Char} (hs : strip x = strip y) (hinf : x <:+: y)
    (hk : keepLine y = true) : keepLine x = true := by
  simp only [keepLine] at hk ⊢
  rw [isDesignLine_congr_strip hs, isHeadingLine_congr_strip hs]
  cases hd : isDesignLine y with
  | true => simp [hd]
  | false =>
    rw [hd] at hk
    cases hh : isHeadingLine y with
    | false => simp [hh]
    | true =>
      rw [hh] at hk
      simp at hk
      have hx : hasMetaName x = false := by
        cases hmx : hasMetaName x with
        | false => rfl
        | true => rw [hasMetaName_mono hinf hmx] at hk; cases hk
      simp [hx]

theorem keepLine_lstrip {y : List Char} (hk : keepLine y = true) :
    keepLine (lstrip y) = true :=
  keepLine_of_within (strip_lstrip y) (lstrip_suffix y).isInfix hk

theorem keepLine_rstrip {y : List Char} (hk : keepLine y = true) :
    keepLine (rstrip y) = true :=
  keepLine_of_within (strip_rstrip y) (rstrip_prefix_self y).isInfix hk

/-! Part: The pattern-cutting prologue of the extractor -/

theorem contains_p2_p1 {s : List Char} (h : containsSub ("### Design\n".toList) s = true) :
    containsSub ("## Design\n".toList) s = true :=
  containsSub_of_pattern ⟨['#'], [], by decide⟩ h

theorem contains_p4_p3 {s : List Char}
    (h : containsSub ("### Design\r\n".toList) s = true) :
    containsSub ("## Design\r\n".toList) s = true :=
  containsSub_of_pattern ⟨['#'], [], by decide⟩ h

theorem preprocess_spec (s : List Char) :
    (preprocess s = s ∧ containsSub ("## Design\n".toList) s = false ∧
      containsSub ("## Design\r\n".toList) s = false) ∨
    (∃ rest, preprocess s = ("## Design".toList) ++ '\n' :: rest) ∨
    (∃ rest, preprocess s = ("## Design\r".toList) ++ '\n' :: rest ∧
      containsSub ("## Design\n".toList) s = false ∧
      containsSub ("### Design\n".toList) s = false) := by
  by_cases h1 : containsSub ("## Design\n".toList) s = true
  · have hfind : designStartPatterns.find? (fun p => containsSub p s)
        = some ("## Design\n".toList) := by
      unfold designStartPatterns
      simp only [List.find?_cons]
      rw [h1]
    have hpre : preprocess s = dropBeforeFirst ("## Design\n".toList) s := by
      simp [preprocess, hfind]
    obtain ⟨rest0, hr⟩ := dropBeforeFirst_starts h1
    refine Or.inr (Or.inl ⟨rest0, ?_⟩)
    rw [hpre, ← hr, show ("## Design\n".toList) = ("## Design".toList) ++ ['\n'] from by decide,
      List.append_assoc]
    rfl
  · have h2 : containsSub ("### Design\n".toList) s = false := by
      cases hc : containsSub ("### Design\n".toList) s with
      | false => rfl
      | true => exact absurd (contains_p2_p1 hc) h1
    by_cases h3 : containsSub ("## Design\r\n".toList) s = true
    · have hfind : designStartPatterns.find? (fun p => containsSub p s)
          = some ("## Design\r\n".toList) := by
        unfold designStartPatterns
        simp only [List.find?_cons]
        rw [eq_false_of_ne_true h1, h2, h3]
      have hpre : preprocess s = dropBeforeFirst ("## Design\r\n".toList) s := by
        simp [preprocess, hfind]
      obtain ⟨rest0, hr⟩ := dropBeforeFirst_starts h3
      refine Or.inr (Or.inr ⟨rest0, ?_, eq_false_of_ne_true h1, h2⟩)
      rw [hpre, ← hr,
        show ("## Design\r\n".toList) = ("## Design\r".toList) ++ ['\n'] from by decide,
        List.append_assoc]
      rfl
    · have h4 : containsSub ("### Design\r\n".toList) s = false := by
        cases hc : containsSub ("### Design\r\n".toList) s with
        | false => rfl
        | true => exact absurd (contains_p4_p3 hc) h3
      have hfind : designStartPatterns.find? (fun p => containsSub p s) = none := by
        unfold designStartPatterns
        simp only [List.find?_cons]
        rw [eq_false_of_ne_true h1, h2, eq_false_of_ne_true h3, h4]
        rfl
      exact Or.inl ⟨by simp [preprocess, hfind], eq_false_of_ne_true h1,
        eq_false_of_ne_true h3⟩

theorem preprocess_suffix (s : List Char) : preprocess s <:+ s := by
  unfold preprocess
  cases designStartPatterns.find? (fun p => containsSub p s) with
  | none => exact List.suffix_refl _
  | some p => exact dropBeforeFirst_suffix p s

/-! Part: Assembling the extractor -/

theorem mem_joinLines_head {c : Char} {l0 : List Char} (T : List (List Char))
    (h : c ∈ l0) : c ∈ joinLines (l0 :: T) := by
  cases T with
  | nil => exact h
  | cons t ts =>
    rw [joinLines_cons_cons]
    exact List.mem_append_left _ h

theorem extract_eq_of_design_split {s : List Char} {A : List (List Char)}
    {l0 : List Char} {rest : List (List Char)}
    (hsplit : splitLines (preprocess s) = A ++ l0 :: rest)
    (hA : ∀ l ∈ A, isDesignLine l = false) (hl0 : isDesignLine l0 = true) :
    extract_design_section s
      = strip (joinLines (l0 :: rest.takeWhile (fun l => !stopLine l))) ∧
    strip (joinLines (l0 :: rest.takeWhile (fun l => !stopLine l))) ≠ [] := by
  have hloop : extractLoop false (splitLines (preprocess s))
      = l0 :: rest.takeWhile (fun l => !stopLine l) := by
    rw [hsplit, extractLoop_false_append _ hA, extractLoop_cons_design false rest hl0,
      extractLoop_true_eq_takeWhile]
  have hne : strip (joinLines (l0 :: rest.takeWhile (fun l => !stopLine l))) ≠ [] := by
    intro hh
    have hall := (strip_eq_nil_iff _).mp hh
    have hl0w : allWs l0 = true := by
      simp only [allWs, List.all_eq_true] at hall ⊢
      intro c hc
      exact hall c (mem_joinLines_head _ hc)
    have hsl0 : strip l0 = [] := (strip_eq_nil_iff l0).mpr hl0w
    rw [isDesignLine, hsl0] at hl0
    exact absurd hl0 (by decide)
  refine ⟨?_, hne⟩
  simp only [extract_design_section]
  rw [hloop, if_neg hne]

theorem lstrip_of_dh_start {q : List Char} (h : designHeader <+: q) : lstrip q = q := by
  obtain ⟨w, rfl⟩ := h
  rw [lstrip_append, if_neg (by decide),
    show lstrip designHeader = designHeader from by decide]

theorem dh_prefix_strip_join_line {l0 : List Char} (T : List (List Char))
    (h : designHeader <+: lstrip l0) :
    designHeader <+: strip (joinLines (l0 :: T)) := by
  have hnw : allWs l0 = false := by
    cases hal : allWs l0 with
    | false => rfl
    | true =>
      rw [(lstrip_eq_nil_iff l0).mpr hal] at h
      exact absurd (List.prefix_nil.mp h) (by decide)
  obtain ⟨m, hm⟩ : ∃ m, joinLines (l0 :: T) = l0 ++ m := by
    cases T with
    | nil => exact ⟨[], by simp [joinLines]⟩
    | cons t ts => exact ⟨'\n' :: joinLines (t :: ts), rfl⟩
  rw [hm, strip, lstrip_append, if_neg (by simp [hnw])]
  obtain ⟨w, hw⟩ := h
  rw [← hw, List.append_assoc]
  exact prefix_through_rstrip (by decide) (List.prefix_append _ _)

theorem validate_of_dh_start (s agent : List Char)
    (h : designHeader.isPrefixOf (lstrip s) = true) :
    validate_response_format s agent = (true, []) := by
  simp [validate_response_format, h]

/-! Part: Fixed points of the extractor -/

theorem find?_eq_some_p1 {t : List Char} (h : containsSub ("## Design\n".toList) t = true) :
    designStartPatterns.find? (fun p => containsSub p t) = some ("## Design\n".toList) := by
  unfold designStartPatterns
  simp only [List.find?_cons]
  rw [h]

theorem find?_eq_some_p3 {t : List Char}
    (h1 : containsSub ("## Design\n".toList) t = false)
    (h2 : containsSub ("### Design\n".toList) t = false)
    (h3 : containsSub ("## Design\r\n".toList) t = true) :
    designStartPatterns.find? (fun p => containsSub p t)
      = some ("## Design\r\n".toList) := by
  unfold designStartPatterns
  simp only [List.find?_cons]
  rw [h1, h2, h3]

theorem preprocess_eq_self_of_not_contains {t : List Char}
    (h1 : containsSub ("## Design\n".toList) t = false)
    (h3 : containsSub ("## Design\r\n".toList) t = false) :
    preprocess t = t := by
  have h2 : containsSub ("### Design\n".toList) t = false := by
    cases hc : containsSub ("### Design\n".toList) t with
    | false => rfl
    | true =>
      have := contains_p2_p1 hc
      rw [h1] at this
      cases this
  have h4 : containsSub ("### Design\r\n".toList) t = false := by
    cases hc : containsSub ("### Design\r\n".toList) t with
    | false => rfl
    | true =>
      have := contains_p4_p3 hc
      rw [h3] at this
      cases this
  have hfind : designStartPatterns.find? (fun p => containsSub p t) = none := by
    unfold designStartPatterns
    simp only [List.find?_cons]
    rw [h1, h2, h3, h4]
    rfl
  simp [preprocess, hfind]

theorem preprocess_of_p1_start {t : List Char} (h : ("## Design\n".toList) <+: t) :
    preprocess t = t := by
  have hc : containsSub ("## Design\n".toList) t = true :=
    (containsSub_iff _ _).mpr h.isInfix
  simp only [preprocess]
  rw [find?_eq_some_p1 hc]
  exact dropBeforeFirst_eq_self h

theorem preprocess_of_p3_start {t : List Char}
    (h1 : containsSub ("## Design\n".toList) t = false)
    (h2 : containsSub ("### Design\n".toList) t = false)
    (h : ("## Design\r\n".toList) <+: t) :
    preprocess t = t := by
  have hc : containsSub ("## Design\r\n".toList) t = true :=
    (containsSub_iff _ _).mpr h.isInfix
  simp only [preprocess]
  rw [find?_eq_some_p3 h1 h2 hc]
  exact dropBeforeFirst_eq_self h

theorem isDesignLine_not_allWs {l : List Char} (h : isDesignLine l = true) :
    allWs l = false := by
  cases hal : allWs l with
  | false => rfl
  | true =>
    rw [isDesignLine, (strip_eq_nil_iff l).mpr hal] at h
    exact absurd h (by decide)

theorem not_newline_lstrip {y : List Char} (h : '\n' ∉ y) : '\n' ∉ lstrip y :=
  fun hc => h ((lstrip_suffix y).sublist.mem hc)

theorem not_newline_rstrip {y : List Char} (h : '\n' ∉ y) : '\n' ∉ rstrip y :=
  fun hc => h ((rstrip_prefix_self y).sublist.mem hc)

theorem splitLines_preprocess_p1 {s rest : List Char}
    (hp : preprocess s = ("## Design".toList) ++ '\n' :: rest) :
    splitLines (preprocess s) = ("## Design".toList) :: splitLines rest := by
  rw [hp, splitLines_append_newline, splitLines_single (by decide)]
  rfl

theorem splitLines_preprocess_p3 {s rest : List Char}
    (hp : preprocess s = ("## Design\r".toList) ++ '\n' :: rest) :
    splitLines (preprocess s) = ("## Design\r".toList) :: splitLines rest := by
  rw [hp, splitLines_append_newline, splitLines_single (by decide)]
  rfl

theorem extract_design_section_eq_or (s : List Char) :
    (strip (joinLines (extractLoop false (splitLines (preprocess s)))) = [] ∧
      extract_design_section s = preprocess s) ∨
    (strip (joinLines (extractLoop false (splitLines (preprocess s)))) ≠ [] ∧
      extract_design_section s
        = strip (joinLines (extractLoop false (splitLines (preprocess s))))) := by
  by_cases h : strip (joinLines (extractLoop false (splitLines (preprocess s)))) = []
  · refine Or.inl ⟨h, ?_⟩
    simp only [extract_design_section]
    rw [if_pos h]
  · refine Or.inr ⟨h, ?_⟩
    simp only [extract_design_section]
    rw [if_neg h]

theorem preprocess_eq_self_of_strip_nil {s : List Char}
    (h : strip (joinLines (extractLoop false (splitLines (preprocess s)))) = []) :
    preprocess s = s := by
  rcases preprocess_spec s with ⟨h0, _, _⟩ | ⟨rest, hp⟩ | ⟨rest, hp, _, _⟩
  · exact h0
  · exfalso
    rw [splitLines_preprocess_p1 hp,
      extractLoop_cons_design false _ (by decide : isDesignLine ("## Design".toList) = true),
      extractLoop_true_eq_takeWhile] at h
    have hall := (strip_eq_nil_iff _).mp h
    simp only [allWs, List.all_eq_true] at hall
    have := hall '#' (mem_joinLines_head _ (by decide))
    exact absurd this (by decide)
  · exfalso
    rw [splitLines_preprocess_p3 hp,
      extractLoop_cons_design false _
        (by decide : isDesignLine ("## Design\r".toList) = true),
      extractLoop_true_eq_takeWhile] at h
    have hall := (strip_eq_nil_iff _).mp h
    simp only [allWs, List.all_eq_true] at hall
    have := hall '#' (mem_joinLines_head _ (by decide))
    exact absurd this (by decide)

theorem extract_eq_self_of_clean {t : List Char} {h0 : List Char}
    {rest0 : List (List Char)} (hpre : preprocess t = t)
    (hsp : splitLines t = h0 :: rest0) (hh0 : isDesignLine h0 = true)
    (hkeep : ∀ l ∈ rest0, keepLine l = true) (hstrip : strip t = t) (hne : t ≠ []) :
    extract_design_section t = t := by
  simp only [extract_design_section]
  rw [hpre, hsp, extractLoop_cons_design false _ hh0, extractLoop_true_of_all_keep hkeep,
    ← hsp, joinLines_splitLines, hstrip, if_neg hne]

theorem extract_d_lines {s : List Char} {l0 : List Char} {T : List (List Char)}
    (hD : extractLoop false (splitLines (preprocess s)) = l0 :: T)
    (hne : strip (joinLines (l0 :: T)) ≠ []) :
    ∃ h0 rest0, splitLines (strip (joinLines (l0 :: T))) = h0 :: rest0 ∧
      (h0 = lstrip l0 ∨ h0 = strip l0) ∧ isDesignLine h0 = true ∧
      (∀ l ∈ rest0, keepLine l = true) := by
  have hl0 : isDesignLine l0 = true := extractLoop_false_head_design hD
  have hl0w : allWs l0 = false := isDesignLine_not_allWs hl0
  have hkD : ∀ l ∈ l0 :: T, keepLine l = true := by
    rw [← hD]
    exact extractLoop_mem_keep
  have hnlD : ∀ l ∈ l0 :: T, '\n' ∉ l := by
    intro l hl
    apply splitLines_no_newline (preprocess s)
    apply extractLoop_mem_subset
    rw [hD]
    exact hl
  have htF : trimLinesFront (l0 :: T) = lstrip l0 :: T := trimLinesFront_cons_not T hl0w
  have hlines : splitLines (strip (joinLines (l0 :: T)))
      = trimLinesBack (lstrip l0 :: T) := by
    rw [strip_joinLines, htF]
    apply splitLines_joinLines
    · intro hnil
      rw [strip_joinLines, htF, hnil] at hne
      exact hne rfl
    · intro l hl
      obtain ⟨y, hy, hxy⟩ := mem_trimLinesBack hl
      have hyn : '\n' ∉ y := by
        rcases List.mem_cons.mp hy with h' | h'
        · exact h' ▸ not_newline_lstrip (hnlD l0 (List.mem_cons_self _ _))
        · exact hnlD y (List.mem_cons_of_mem _ h')
      rcases hxy with h' | h'
      · exact h' ▸ hyn
      · exact h' ▸ not_newline_rstrip hyn
  have hkeep_all : ∀ l ∈ trimLinesBack (lstrip l0 :: T), keepLine l = true := by
    intro l hl
    obtain ⟨y, hy, hxy⟩ := mem_trimLinesBack hl
    have hky : keepLine y = true := by
      rcases List.mem_cons.mp hy with h' | h'
      · exact h' ▸ keepLine_lstrip (hkD l0 (List.mem_cons_self _ _))
      · exact hkD y (List.mem_cons_of_mem _ h')
    rcases hxy with h' | h'
    · exact h' ▸ hky
    · exact h' ▸ keepLine_rstrip hky
  rcases trimLinesBack_cons_cases (lstrip l0) T with hc | hc | ⟨ms, hc⟩
  · rw [hc] at hlines
    exact absurd hlines (splitLines_ne_nil _)
  · refine ⟨rstrip (lstrip l0), [], by rw [hlines, hc], Or.inr rfl, ?_, by simp⟩
    rw [isDesignLine_congr_strip (x := rstrip (lstrip l0)) (y := l0) (by
      rw [strip_rstrip, strip_lstrip])]
    exact hl0
  · refine ⟨lstrip l0, ms, by rw [hlines, hc], Or.inl rfl, ?_, ?_⟩
    · rw [isDesignLine_congr_strip (x := lstrip l0) (y := l0) (strip_lstrip l0)]
      exact hl0
    · intro l hl
      apply hkeep_all
      rw [hc]
      exact List.mem_cons_of_mem _ hl

/-- C6: `extract_design_section` is idempotent — for every string `s`,
extracting twice gives the same result as extracting once. -/
theorem extract_design_section_idempotent (s : List Char) :
    extract_design_section (extract_design_section s) = extract_design_section s := by
  rcases extract_design_section_eq_or s with ⟨hnil, heq⟩ | ⟨hne, heq⟩
  · have hps : preprocess s = s := preprocess_eq_self_of_strip_nil hnil
    rw [heq, hps]
    exact heq.trans hps
  · rw [heq]
    have hinf :
        strip (joinLines (extractLoop false (splitLines (preprocess s)))) <:+: s := by
      have h1 := strip_infix_self (joinLines (extractLoop false (splitLines (preprocess s))))
      have h2 := joinLines_extractLoop_middle (splitLines (preprocess s))
      rw [joinLines_splitLines] at h2
      exact (h1.trans h2).trans (preprocess_suffix s).isInfix
    cases hD : extractLoop false (splitLines (preprocess s)) with
    | nil =>
      rw [hD] at hne
      exact absurd rfl hne
    | cons l0 T =>
      rw [hD] at hne hinf
      obtain ⟨h0, rest0, hsp, hshape, hh0, hkeep⟩ := extract_d_lines hD hne
      have hstripd : strip (strip (joinLines (l0 :: T))) = strip (joinLines (l0 :: T)) :=
        strip_idem _
      have hd_join : strip (joinLines (l0 :: T)) = joinLines (h0 :: rest0) := by
        conv_lhs => rw [← joinLines_splitLines (strip (joinLines (l0 :: T))), hsp]
      have htrans : ∀ p, containsSub p (strip (joinLines (l0 :: T))) = true →
          containsSub p s = true := fun p hp => containsSub_mono hinf hp
      have hpre : preprocess (strip (joinLines (l0 :: T))) = strip (joinLines (l0 :: T)) := by
        rcases preprocess_spec s with ⟨hps, hc1, hc3⟩ | ⟨rest, hp⟩ | ⟨rest, hp, hc1, hc2⟩
        · apply preprocess_eq_self_of_not_contains
          · cases hcd : containsSub ("## Design\n".toList)
                (strip (joinLines (l0 :: T))) with
            | false => rfl
            | true => rw [htrans _ hcd] at hc1; cases hc1
          · cases hcd : containsSub ("## Design\r\n".toList)
                (strip (joinLines (l0 :: T))) with
            | false => rfl
            | true => rw [htrans _ hcd] at hc3; cases hc3
        · have hl0q : l0 = ("## Design".toList) := by
            rw [splitLines_preprocess_p1 hp, extractLoop_cons_design false _
              (by decide : isDesignLine ("## Design".toList) = true)] at hD
            injection hD with h1 h2
            exact h1.symm
          subst hl0q
          have hh0q : h0 = ("## Design".toList) := by
            rcases hshape with h' | h' <;> rw [h'] <;> decide
          cases rest0 with
          | nil =>
            rw [hd_join, hh0q]
            exact preprocess_eq_self_of_not_contains (by decide) (by decide)
          | cons m ms =>
            rw [hd_join]
            apply preprocess_of_p1_start
            rw [hh0q, joinLines_cons_cons]
            refine ⟨joinLines (m :: ms), ?_⟩
            rw [show ("## Design\n".toList) = ("## Design".toList) ++ ['\n'] from by decide,
              List.append_assoc]
            rfl
        · have hl0q : l0 = ("## Design\r".toList) := by
            rw [splitLines_preprocess_p3 hp, extractLoop_cons_design false _
              (by decide : isDesignLine ("## Design\r".toList) = true)] at hD
            injection hD with h1 h2
            exact h1.symm
          subst hl0q
          rcases hshape with h' | h'
          · have hh0q : h0 = ("## Design\r".toList) := by rw [h']; decide
            cases rest0 with
            | nil =>
              rw [hd_join, hh0q]
              exact preprocess_eq_self_of_not_contains (by decide) (by decide)
            | cons m ms =>
              rw [hd_join]
              have hd1 : containsSub ("## Design\n".toList)
                  (joinLines (h0 :: m :: ms)) = false := by
                cases hcd : containsSub ("## Design\n".toList)
                    (joinLines (h0 :: m :: ms)) with
                | false => rfl
                | true =>
                  rw [← hd_join] at hcd
                  rw [htrans _ hcd] at hc1
                  cases hc1
              have hd2 : containsSub ("### Design\n".toList)
                  (joinLines (h0 :: m :: ms)) = false := by
                cases hcd : containsSub ("### Design\n".toList)
                    (joinLines (h0 :: m :: ms)) with
                | false => rfl
                | true =>
                  rw [← hd_join] at hcd
                  rw [htrans _ hcd] at hc2
                  cases hc2
              apply preprocess_of_p3_start hd1 hd2
              rw [hh0q, joinLines_cons_cons]
              refine ⟨joinLines (m :: ms), ?_⟩
              rw [show ("## Design\r\n".toList)
                    = ("## Design\r".toList) ++ ['\n'] from by decide,
                List.append_assoc]
              rfl
          · have hh0q : h0 = ("## Design".toList) := by rw [h']; decide
            cases rest0 with
            | nil =>
              rw [hd_join, hh0q]
              exact preprocess_eq_self_of_not_contains (by decide) (by decide)
            | cons m ms =>
              rw [hd_join]
              apply preprocess_of_p1_start
              rw [hh0q, joinLines_cons_cons]
              refine ⟨joinLines (m :: ms), ?_⟩
              rw [show ("## Design\n".toList)
                    = ("## Design".toList) ++ ['\n'] from by decide,
                List.append_assoc]
              rfl
      exact extract_eq_self_of_clean hpre hsp hh0 hkeep hstripd hne

/-! Part: Locating the header line -/

theorem prefix_headI_splitLines {q : List Char} (hq : '\n' ∉ q) :
    ∀ {s : List Char}, q <+: s → q <+: (splitLines s).headI := by
  induction q with
  | nil => exact fun _ => List.nil_prefix
  | cons a q' ih =>
    intro s h
    obtain ⟨w, rfl⟩ := h
    have ha : a ≠ '\n' := fun hh => hq (hh ▸ List.mem_cons_self _ _)
    rw [List.cons_append, splitLines_cons_other _ ha]
    show a :: q' <+: a :: (splitLines (q' ++ w)).headI
    refine List.cons_prefix_cons.mpr ⟨rfl, ?_⟩
    exact ih (fun hh => hq (List.mem_cons_of_mem _ hh)) ⟨w, rfl⟩

theorem strip_cons_ws {c : Char} (a : List Char) (h : isWs c = true) :
    strip (c :: a) = strip a := by
  rw [strip, lstrip_cons, if_pos h]
  rfl

theorem exists_pDesign_line {s : List Char}
    (h : designHeader.isPrefixOf (lstrip s) = true) :
    ∃ l ∈ splitLines s, pDesign l = true := by
  induction s with
  | nil => exact absurd h (by decide)
  | cons c t ih =>
    by_cases hm : isWs c = true
    · rw [lstrip_cons, if_pos hm] at h
      obtain ⟨l, hl, hdl⟩ := ih h
      by_cases hc : c = '\n'
      · subst hc
        exact ⟨l, by rw [splitLines_cons_newline]; exact List.mem_cons_of_mem _ hl, hdl⟩
      · rw [splitLines_cons_other _ hc]
        cases hsp : splitLines t with
        | nil => exact absurd hsp (splitLines_ne_nil t)
        | cons a as =>
          show ∃ x ∈ (c :: a) :: as, pDesign x = true
          rw [hsp] at hl
          rcases List.mem_cons.mp hl with h' | h'
          · refine ⟨c :: a, List.mem_cons_self _ _, ?_⟩
            rw [h'] at hdl
            rw [pDesign, strip_cons_ws a hm]
            exact hdl
          · exact ⟨l, List.mem_cons_of_mem _ h', hdl⟩
    · rw [lstrip_cons, if_neg (by simp [hm])] at h
      have hc : c ≠ '\n' := by
        intro hcc
        subst hcc
        exact hm (by decide)
      have hfl := prefix_headI_splitLines (by decide) ( List.isPrefixOf_iff_prefix.mp h)
      rw [splitLines_cons_other _ hc] at hfl
      rw [splitLines_cons_other _ hc]
      refine ⟨c :: (splitLines t).headI, List.mem_cons_self _ _, ?_⟩
      rw [pDesign]
      apply List.isPrefixOf_iff_prefix.mpr
      rw [strip, lstrip_of_head_false _ (eq_false_of_ne_true hm)]
      exact prefix_through_rstrip (by decide) hfl

/-! Part: C10 -/

/-- C10: the validator's header check is a prefix test, not an exact-line
match — for every response whose leading-whitespace-stripped form begins
with the nine characters `## Design`, `validate_response_format` returns
success with an empty message, even when the header line continues with
further characters (such as `## Designs` or `## Design Document`). -/
theorem validator_header_check_is_prefix_test (s agent : List Char)
    (h : designHeader.isPrefixOf (lstrip s) = true) :
    validate_response_format s agent = (true, []) :=
  validate_of_dh_start s agent h

/-- Witness for C10 at the concrete response `## Designs`, whose first line
continues beyond the header token. -/
theorem validator_header_check_is_prefix_test_witness :
    designHeader.isPrefixOf (lstrip ("## Designs".toList)) = true ∧
    validate_response_format ("## Designs".toList) ("Agent A".toList) = (true, []) :=
  ⟨by decide, validator_header_check_is_prefix_test _ _ (by decide)⟩

/-! Part: C8 -/

/-- C8 counterexample: the claim says a response whose first non-whitespace
content is the line `### Design` is accepted as valid, just as `## Design`
is; on the concrete response `### Design\nAPI` the validator instead fails,
returning the missing-header message. -/
theorem level3_design_header_rejected_cex :
    validate_response_format ("### Design\nAPI".toList) ("Agent A".toList)
      = (false, ("Agent A".toList) ++ missingHeaderMsg) := by
  decide

/-- C8 amended: a response whose first non-whitespace content begins with
`### Design` is not accepted by `validate_response_format` — validation
fails; only the `## Design` form passes the header check (the extractor
`extract_design_section` does recognize `### Design`, but the validator
does not). -/
theorem level3_design_header_rejected (s agent : List Char)
    (h : ("### Design".toList).isPrefixOf (lstrip s) = true) :
    (validate_response_format s agent).1 = false := by
  obtain ⟨w, hw⟩ := List.isPrefixOf_iff_prefix.mp h
  have hpre : designHeader.isPrefixOf (lstrip s) = false := by
    rw [← hw]
    simp [designHeader, List.isPrefixOf]
  simp only [validate_response_format]
  rw [if_neg (by simp [hpre])]
  rcases hscan : scanLines 0 (splitLines s) with ⟨od, ps⟩
  cases od <;> rfl

/-- Witness for C8 at the concrete response `### Design\nBody`. -/
theorem level3_design_header_rejected_witness :
    ("### Design".toList).isPrefixOf (lstrip ("### Design\nBody".toList)) = true ∧
    (validate_response_format ("### Design\nBody".toList) ("Agent B".toList)).1 = false :=
  ⟨by decide, level3_design_header_rejected _ _ (by decide)⟩

/-! Part: C1 -/

/-- C1 counterexample: in the response `"x\n ## Design"` the token
`## Design` does not occur at the start of any (untrimmed) line — the
second line starts with a space — yet the validator does not return the
missing-header message; it returns the preamble-violation message citing
line 2.  The claim's "missing header" clause therefore fails when "at the
start of any line" is read on the raw lines. -/
theorem validator_missing_header_cex :
    (∀ l ∈ splitLines ("x\n ## Design".toList), designHeader.isPrefixOf l = false) ∧
    validate_response_format ("x\n ## Design".toList) ("Agent A".toList)
      ≠ (false, ("Agent A".toList) ++ missingHeaderMsg) := by
  decide

/-- C1 amended: `validate_response_format` returns success (with an empty
message) iff the response, after stripping only leading whitespace, begins
with `## Design`; and for every string in which `## Design` does not begin
any line after that line is trimmed of surrounding whitespace, it returns
failure with the distinct missing-header message naming the agent. -/
theorem validator_success_iff_header (s agent : List Char) :
    (validate_response_format s agent = (true, [])
      ↔ designHeader.isPrefixOf (lstrip s) = true)
    ∧ ((∀ l ∈ splitLines s, pDesign l = false) →
        validate_response_format s agent = (false, agent ++ missingHeaderMsg)) := by
  constructor
  · constructor
    · intro h
      cases hb : designHeader.isPrefixOf (lstrip s) with
      | true => rfl
      | false =>
        exfalso
        simp only [validate_response_format] at h
        rw [if_neg (by simp [hb])] at h
        rcases hscan : scanLines 0 (splitLines s) with ⟨od, ps⟩
        rw [hscan] at h
        cases od <;> simp at h
    · intro h
      exact validate_of_dh_start s agent h
  · intro hall
    have hb : designHeader.isPrefixOf (lstrip s) = false := by
      cases hb : designHeader.isPrefixOf (lstrip s) with
      | false => rfl
      | true =>
        obtain ⟨l, hl, hdl⟩ := exists_pDesign_line hb
        rw [hall l hl] at hdl
        cases hdl
    simp only [validate_response_format]
    rw [if_neg (by simp [hb]), scanLines_eq, (firstIdx_eq_none_iff _ _).mpr hall]
    rfl

/-- Witness for C1 at a concrete response with no header anywhere. -/
theorem validator_success_iff_header_witness :
    validate_response_format ("no header here".toList) ("Agent B".toList)
      = (false, ("Agent B".toList) ++ missingHeaderMsg) :=
  (validator_success_iff_header _ _).2 (by decide)

theorem pDesign_dh_append (x : List Char) : pDesign (designHeader ++ x) = true := by
  rw [pDesign]
  apply List.isPrefixOf_iff_prefix.mpr
  rw [strip, lstrip_append, if_neg (by decide),
    show lstrip designHeader = designHeader from by decide]
  exact prefix_through_rstrip (by decide) (List.prefix_append _ _)

theorem isDesignLine_of_pDesign {l : List Char} (h : pDesign l = true) :
    isDesignLine l = true := by
  rw [isDesignLine, pDesign] at *
  rw [h]
  simp

/-! Part: C2 -/

/-- C2 counterexample: for the non-whitespace prefix `"x"` and empty suffix,
the response `"x## Design"` (the header not at a line start) makes the
validator fail with the missing-header message, not with a preamble message
reporting a line number — the message does not even contain the
`Forbidden preamble` marker of the preamble diagnostics. -/
theorem validator_preamble_cex :
    strip ("x".toList) ≠ [] ∧
    validate_response_format (("x".toList) ++ designHeader ++ []) ("Agent A".toList)
      = (false, ("Agent A".toList) ++ missingHeaderMsg) ∧
    containsSub ("Forbidden preamble".toList)
      (validate_response_format (("x".toList) ++ designHeader ++ []) ("Agent A".toList)).2
      = false := by
  decide

/-- C2 amended: for every response `pre ++ "\n" ++ "## Design" ++ suf` whose
prefix contains a non-whitespace character, provided the response does not
itself begin with `## Design` after stripping leading whitespace, the
validator fails with the preamble message: it names the violating agent,
reports the 1-based line number `d + 1` of the first line whose trimmed
form begins with `## Design`, and lists the first at most 5 non-empty lines
preceding that line, each rendered with its own 1-based number and
truncated to 80 characters (`preambleList` and `fmtLine`). -/
theorem validator_preamble_message (pre suf agent : List Char)
    (h1 : allWs pre = false)
    (h2 : designHeader.isPrefixOf (lstrip (pre ++ '\n' :: (designHeader ++ suf)))
      = false) :
    ∃ d, firstIdx pDesign (splitLines (pre ++ '\n' :: (designHeader ++ suf))) = some d ∧
      validate_response_format (pre ++ '\n' :: (designHeader ++ suf)) agent
        = (false, agent ++ violationMsg1 ++ natChars (d + 1) ++ violationMsg2
            ++ joinLines ((preambleList 0
                (splitLines (pre ++ '\n' :: (designHeader ++ suf)))).take 5)
            ++ violationMsg3) := by
  have hsp : splitLines (pre ++ '\n' :: (designHeader ++ suf))
      = splitLines pre ++ splitLines (designHeader ++ suf) :=
    splitLines_append_newline _ _
  have hsp2 : splitLines (designHeader ++ suf)
      = (designHeader ++ (splitLines suf).headI) :: (splitLines suf).tail :=
    splitLines_append_no_newline _ (by decide)
  have hmem : (designHeader ++ (splitLines suf).headI)
      ∈ splitLines (pre ++ '\n' :: (designHeader ++ suf)) := by
    rw [hsp, hsp2]
    exact List.mem_append_right _ (List.mem_cons_self _ _)
  have hnn := firstIdx_ne_none_of_mem hmem (pDesign_dh_append _)
  obtain ⟨d, hd⟩ := Option.ne_none_iff_exists'.mp hnn
  refine ⟨d, hd, ?_⟩
  simp only [validate_response_format]
  rw [if_neg (by simp [h2]), scanLines_eq, hd]
  simp [Nat.zero_add]

/-- Witness for C2 at the concrete prefix `Thank you.` and suffix
`\n\nBody`. -/
theorem validator_preamble_message_witness :
    ∃ d, firstIdx pDesign (splitLines (("Thank you.".toList) ++ '\n'
        :: (designHeader ++ ("\n\nBody".toList)))) = some d ∧
      validate_response_format (("Thank you.".toList) ++ '\n'
          :: (designHeader ++ ("\n\nBody".toList))) ("Agent A".toList)
        = (false, ("Agent A".toList) ++ violationMsg1 ++ natChars (d + 1) ++ violationMsg2
            ++ joinLines ((preambleList 0 (splitLines (("Thank you.".toList) ++ '\n'
                :: (designHeader ++ ("\n\nBody".toList))))).take 5)
            ++ violationMsg3) :=
  validator_preamble_message _ _ _ (by decide) (by decide)

/-! Part: C5 -/

/-- C5 counterexample: for the non-whitespace prefix `"x"` and suffix `"y"`,
extraction does not repair the response `"x## Designy"` — it returns it
unchanged, and re-validation still fails. -/
theorem extract_repairs_preamble_cex :
    strip ("x".toList) ≠ [] ∧
    (validate_response_format
        (extract_design_section (("x".toList) ++ designHeader ++ ("y".toList)))
        ("Agent A".toList)).1 = false := by
  decide

/-- C5 amended: for every response `pre ++ "\n" ++ "## Design" ++ suf` whose
prefix contains a non-whitespace character and no line of which, after
trimming, begins with `### Design`, validating the extraction of the
response succeeds. -/
theorem extract_repairs_preamble (pre suf agent : List Char)
    (h1 : allWs pre = false)
    (h2 : ∀ l ∈ splitLines pre, ("### Design".toList).isPrefixOf (strip l) = false) :
    validate_response_format
        (extract_design_section (pre ++ '\n' :: (designHeader ++ suf))) agent
      = (true, []) := by
  rcases preprocess_spec (pre ++ '\n' :: (designHeader ++ suf)) with
    ⟨hps, hc1, hc3⟩ | ⟨rest, hp⟩ | ⟨rest, hp, hc1, hc2⟩
  · -- no pattern cut: find the first design line of the response itself
    have hsp : splitLines (pre ++ '\n' :: (designHeader ++ suf))
        = splitLines pre ++ splitLines (designHeader ++ suf) :=
      splitLines_append_newline _ _
    have hsp2 : splitLines (designHeader ++ suf)
        = (designHeader ++ (splitLines suf).headI) :: (splitLines suf).tail :=
      splitLines_append_no_newline _ (by decide)
    obtain ⟨A, l0, rest2, hsplit2, hA, hl0, hmem2⟩ :=
      firstIdx_split_mem (q := isDesignLine) (splitLines pre)
        (designHeader ++ (splitLines suf).headI) ((splitLines suf).tail)
        (isDesignLine_of_pDesign (pDesign_dh_append _))
    have hsplit3 : splitLines (preprocess (pre ++ '\n' :: (designHeader ++ suf)))
        = A ++ l0 :: rest2 := by
      rw [hps, hsp, hsp2, hsplit2]
    obtain ⟨heq, hne⟩ := extract_eq_of_design_split hsplit3 hA hl0
    rw [heq]
    apply validate_of_dh_start
    apply List.isPrefixOf_iff_prefix.mpr
    rw [lstrip_strip]
    apply dh_prefix_strip_join_line
    have hpd : pDesign l0 = true := by
      rcases hmem2 with hm | ⟨hm, _⟩
      · have h3 := h2 l0 hm
        rw [isDesignLine, h3] at hl0
        rw [pDesign]
        simpa using hl0
      · rw [hm]
        exact pDesign_dh_append _
    exact ( List.isPrefixOf_iff_prefix.mp hpd).trans (rstrip_prefix_self (lstrip l0))
  · -- cut at `## Design\n`
    have hsp := splitLines_preprocess_p1 hp
    obtain ⟨heq, hne⟩ := extract_eq_of_design_split
      (A := []) (by rw [hsp]; rfl) (by simp) (by decide)
    rw [heq]
    apply validate_of_dh_start
    apply List.isPrefixOf_iff_prefix.mpr
    rw [lstrip_strip]
    apply dh_prefix_strip_join_line
    rw [show lstrip ("## Design".toList) = ("## Design".toList) from by decide]
    exact List.prefix_refl _
  · -- cut at `## Design\r\n`
    have hsp := splitLines_preprocess_p3 hp
    obtain ⟨heq, hne⟩ := extract_eq_of_design_split
      (A := []) (by rw [hsp]; rfl) (by simp) (by decide)
    rw [heq]
    apply validate_of_dh_start
    apply List.isPrefixOf_iff_prefix.mpr
    rw [lstrip_strip]
    apply dh_prefix_strip_join_line
    rw [show lstrip ("## Design\r".toList) = ("## Design\r".toList) from by decide]
    exact ⟨['\r'], by decide⟩

/-- Witness for C5 at the concrete prefix `Intro` and suffix `\nBody`. -/
theorem extract_repairs_preamble_witness :
    validate_response_format
        (extract_design_section (("Intro".toList) ++ '\n'
          :: (designHeader ++ ("\nBody".toList)))) ("Agent A".toList)
      = (true, []) :=
  extract_repairs_preamble _ _ _ (by decide) (by decide)

/-! Part: C7 -/

/-- C7 counterexample: in `"x## Design\nfoo"` no line, after trimming,
begins a Design heading, yet `extract_design_section` does not return the
input unchanged — the pattern-cutting prologue fires on the mid-line
occurrence of `## Design` followed by a newline. -/
theorem extract_identity_cex :
    (∀ l ∈ splitLines ("x## Design\nfoo".toList), isDesignLine l = false) ∧
    extract_design_section ("x## Design\nfoo".toList) = ("## Design\nfoo".toList) ∧
    extract_design_section ("x## Design\nfoo".toList) ≠ ("x## Design\nfoo".toList) := by
  decide

/-- C7 amended: for every string in which no line, after trimming, begins a
Design heading AND in which `## Design` immediately followed by a line
break (LF or CRLF) does not occur as a substring, `extract_design_section`
returns the input unchanged; and for every non-empty input the result is
never the empty string. -/
theorem extract_identity_on_headerless (s : List Char) :
    ((∀ l ∈ splitLines s, isDesignLine l = false) →
      containsSub ("## Design\n".toList) s = false →
      containsSub ("## Design\r\n".toList) s = false →
      extract_design_section s = s)
    ∧ (s ≠ [] → extract_design_section s ≠ []) := by
  constructor
  · intro hall hc1 hc3
    have hps : preprocess s = s := preprocess_eq_self_of_not_contains hc1 hc3
    simp only [extract_design_section]
    rw [hps, extractLoop_false_nil hall,
      if_pos (show strip (joinLines []) = [] from rfl)]
  · intro hne
    rcases extract_design_section_eq_or s with ⟨hnil, heq⟩ | ⟨hne2, heq⟩
    · rw [heq, preprocess_eq_self_of_strip_nil hnil]
      exact hne
    · rw [heq]
      exact hne2

/-- Witness for C7 at the concrete headerless response `plain text`. -/
theorem extract_identity_on_headerless_witness :
    extract_design_section ("plain text".toList) = ("plain text".toList) ∧
    extract_design_section ("plain text".toList) ≠ [] :=
  ⟨(extract_identity_on_headerless _).1 (by decide) (by decide) (by decide),
   (extract_identity_on_headerless _).2 (by decide)⟩

/-! Part: C3 -/

/-- C3 counterexample: `## Design Rationale` is a level-2 heading whose
title contains the meta-section name `Rationale`, so by the claim the
accumulation should stop there and exclude it; the extractor instead keeps
it (lines that themselves begin with a Design heading are never treated as
meta stops), as the concrete run shows. -/
theorem extract_meta_stop_cex :
    isHeadingLine ("## Design Rationale".toList) = true ∧
    hasMetaName ("## Design Rationale".toList) = true ∧
    extract_design_section
        ("## Design\n## Design Rationale\nkeep\n## Rationale\nx".toList)
      = ("## Design\n## Design Rationale\nkeep".toList) := by
  decide

/-- C3 amended: once the (preprocessed) response splits as non-Design lines
followed by a first Design heading line `l0`, the extraction is `l0`
followed by the longest run of subsequent lines that are not "stop" lines —
a stop line being a level-2 or level-3 heading containing a meta-section
name that is not itself a Design heading — with the result stripped of
surrounding whitespace; and on the spec's concrete scenario the extraction
yields exactly `"## Design\n\n# API"`. -/
theorem extract_accumulates_until_meta :
    (∀ (s : List Char) (A : List (List Char)) (l0 : List Char)
        (rest : List (List Char)),
      splitLines (preprocess s) = A ++ l0 :: rest →
      (∀ l ∈ A, isDesignLine l = false) → isDesignLine l0 = true →
      extract_design_section s
        = strip (joinLines (l0 :: rest.takeWhile (fun l => !stopLine l))))
    ∧ extract_design_section
        ("Thank you for the feedback.\n\n## Design\n\n# API\n\n## Rationale\nDone.\n".toList)
      = ("## Design\n\n# API".toList) := by
  constructor
  · intro s A l0 rest hsplit hA hl0
    exact (extract_eq_of_design_split hsplit hA hl0).1
  · decide

/-- Witness for C3 at a concrete response whose Design heading line carries
extra text, so that no cut pattern fires and the preamble line is skipped. -/
theorem extract_accumulates_until_meta_witness :
    extract_design_section ("pre\n## Design more\nbody".toList)
      = strip (joinLines (("## Design more".toList)
          :: [("body".toList)].takeWhile (fun l => !stopLine l))) :=
  (extract_accumulates_until_meta).1 _ [("pre".toList)] _ _
    (by decide) (by decide) (by decide)

/-! Part: C9 -/

/-- C9 counterexample: on `"## Design\nA\n## Rationale\nB"` the simple
variant of the extractor (`test_format_enforcement.py`) returns the whole
text from the header line on, while the `demonstrate_fixes.py` variant cuts
the `## Rationale` meta section; the two variants are not the same
function. -/
theorem extractor_variants_cex :
    TestFormatEnforcement.extract_design_section
        ("## Design\nA\n## Rationale\nB".toList)
      ≠ extract_design_section ("## Design\nA\n## Rationale\nB".toList) := by
  decide

/-- C9 amended: the two extractor variants agree on every response whose
first line is exactly `## Design`, which carries no trailing whitespace,
and in which no later line is a meta-section stop line. -/
theorem firstIdx_cons_pos {α : Type} {p : α → Bool} {a : α} (l : List α)
    (h : p a = true) : firstIdx p (a :: l) = some 0 := by
  simp [firstIdx, h]

theorem extractor_variants_agree (s : List Char) (rest : List (List Char))
    (h1 : splitLines s = ("## Design".toList) :: rest)
    (h2 : ∀ l ∈ rest, stopLine l = false)
    (h3 : rstrip s = s) :
    TestFormatEnforcement.extract_design_section s = extract_design_section s := by
  have hfi : firstIdx pDesign (splitLines s) = some 0 := by
    rw [h1]
    exact firstIdx_cons_pos rest (by decide)
  have hsimple : TestFormatEnforcement.extract_design_section s = s := by
    simp only [TestFormatEnforcement.extract_design_section]
    rw [hfi]
    show joinLines ((splitLines s).drop 0) = s
    rw [List.drop_zero, joinLines_splitLines]
  rw [hsimple]
  have hs_eq : s = joinLines (("## Design".toList) :: rest) := by
    rw [← h1, joinLines_splitLines]
  have hps : preprocess s = s := by
    cases rest with
    | nil =>
      rw [hs_eq]
      exact preprocess_eq_self_of_not_contains (by decide) (by decide)
    | cons m ms =>
      apply preprocess_of_p1_start
      rw [hs_eq, joinLines_cons_cons]
      refine ⟨joinLines (m :: ms), ?_⟩
      rw [show ("## Design\n".toList) = ("## Design".toList) ++ ['\n'] from by decide,
        List.append_assoc]
      rfl
  have hkeep : ∀ l ∈ rest, keepLine l = true := by
    intro l hl
    have hst := h2 l hl
    simp only [stopLine] at hst
    simp only [keepLine]
    cases hd : isDesignLine l with
    | true => simp
    | false =>
      rw [hd] at hst
      cases hh : isHeadingLine l with
      | false => simp [hh]
      | true =>
        rw [hh] at hst
        simp at hst
        simp [hst]
  have hlstrip : lstrip s = s := by
    obtain ⟨m, hm⟩ : ∃ m, joinLines (("## Design".toList) :: rest)
        = ("## Design".toList) ++ m := by
      cases rest with
      | nil => exact ⟨[], by simp [joinLines]⟩
      | cons t ts => exact ⟨'\n' :: joinLines (t :: ts), rfl⟩
    conv_lhs => rw [hs_eq, hm]
    rw [lstrip_append, if_neg (by decide),
      show lstrip ("## Design".toList) = ("## Design".toList) from by decide]
    rw [hs_eq, hm]
  have hstrip : strip s = s := by
    rw [strip, hlstrip, h3]
  have hne : s ≠ [] := by
    rw [hs_eq]
    cases rest with
    | nil => decide
    | cons m ms =>
      rw [joinLines_cons_cons]
      simp
  exact (extract_eq_self_of_clean hps h1 (by decide) hkeep hstrip hne).symm

/-- Witness for C9 at the concrete response `## Design\nBody`. -/
theorem extractor_variants_agree_witness :
    TestFormatEnforcement.extract_design_section ("## Design\nBody".toList)
      = extract_design_section ("## Design\nBody".toList) :=
  extractor_variants_agree _ [("Body".toList)] (by decide) (by decide) (by decide)

/-! Part: C4 -/

/-- C4: `check_convergence` is a pure function of only the two convergence
signals and satisfies the section 4.4 truth table on all 9 pairs drawn from
PROPOSING_FINAL, ACCEPTING_FINAL and ITERATING: CONSENSUS when both signals
are final, CONVERGING when exactly one is ITERATING, DEBATING when both are
ITERATING. -/
theorem check_convergence_truth_table :
    (check_convergence ("PROPOSING_FINAL".toList) ("PROPOSING_FINAL".toList)
      = ConvergenceStatus.CONSENSUS)
    ∧ (check_convergence ("PROPOSING_FINAL".toList) ("ACCEPTING_FINAL".toList)
      = ConvergenceStatus.CONSENSUS)
    ∧ (check_convergence ("ACCEPTING_FINAL".toList) ("PROPOSING_FINAL".toList)
      = ConvergenceStatus.CONSENSUS)
    ∧ (check_convergence ("ACCEPTING_FINAL".toList) ("ACCEPTING_FINAL".toList)
      = ConvergenceStatus.CONSENSUS)
    ∧ (check_convergence ("PROPOSING_FINAL".toList) ("ITERATING".toList)
      = ConvergenceStatus.CONVERGING)
    ∧ (check_convergence ("ACCEPTING_FINAL".toList) ("ITERATING".toList)
      = ConvergenceStatus.CONVERGING)
    ∧ (check_convergence ("ITERATING".toList) ("PROPOSING_FINAL".toList)
      = ConvergenceStatus.CONVERGING)
    ∧ (check_convergence ("ITERATING".toList) ("ACCEPTING_FINAL".toList)
      = ConvergenceStatus.CONVERGING)
    ∧ (check_convergence ("ITERATING".toList) ("ITERATING".toList)
      = ConvergenceStatus.DEBATING) := by
  decide
